import Mathlib

/-!
Verification development for the cbor++ single-header CBOR codec
(src/cbor++.h).  The C++ is shallowly embedded: the byte buffer is a
`List Nat` of byte values, iterators are `(offset, cont, idx)` triples of
naturals, machine integers are `Nat`/`Int` with explicit `% 2^w`
arithmetic where overflow matters, and every throwing code path returns
`Except Err`.  Unbounded loops in the C++ (which are undefined behaviour
when they run off the buffer) are modelled with an explicit fuel
parameter; exhausting the fuel yields the distinguished error `Err.noFuel`,
which corresponds to no C++ error kind.
-/

namespace Cborxx

/-- A byte buffer: the caller-supplied contiguous byte container `S`.
Entries are byte values `0..255`. -/
abbrev Buf := List Nat

/-- `bytesOK b` states every entry of the buffer is a byte value. -/
def bytesOK (b : Buf) : Prop := ∀ x ∈ b, x < 256

/-- Read one byte at offset `p`.  Reading past the end of the buffer is
undefined behaviour in the C++; the model returns `0` there. -/
def rd (b : Buf) (p : Nat) : Nat := b.getD p 0

/-- Big-endian byte image of `n`, `k` bytes wide (the store half of
`write_be`: the value is truncated to `k` bytes, most significant byte
first). -/
def beBytes : Nat → Nat → List Nat
  | 0, _ => []
  | k + 1, n => beBytes k (n / 256) ++ [n % 256]

/-- `read_be<T>` with `sizeof T = k`: read `k` bytes at `p`, most
significant first. -/
def readBE (b : Buf) (p : Nat) : Nat → Nat
  | 0 => 0
  | k + 1 => readBE b p k * 256 + rd b (p + k)

/-- The error kinds of §7 of the spec, plus `noFuel` marking the
fuel-exhaustion of a loop the C++ would never exit (undefined
behaviour), which is distinct from every real error kind. -/
inductive Err where
  | malformedHead
  | unsupportedFeature
  | wrongKind
  | overflow
  | lossyConversion
  | invalidTagValue
  | noFuel
deriving DecidableEq, Repr

/-! ## Item-head codec (`namespace ih` of the source) -/

/-- `ih::get_major`: top 3 bits of the initial byte. -/
def getMajor (b : Buf) (p : Nat) : Nat := rd b p / 32

/-- `ih::get_ai`: low 5 bits of the initial byte. -/
def getAi (b : Buf) (p : Nat) : Nat := rd b p % 32

/-- `ih::get_arg_size`: number of trailing argument bytes.  Additional
information 28–30 is reserved and throws. -/
def getArgSize (b : Buf) (p : Nat) : Except Err Nat :=
  let ai := getAi b p
  if ai ≤ 23 then .ok 0
  else if ai = 24 then .ok 1
  else if ai = 25 then .ok 2
  else if ai = 26 then .ok 4
  else if ai = 27 then .ok 8
  else if ai ≤ 30 then .error .malformedHead
  else .ok 0

/-- `ih::get_ih_size`: 1 initial byte plus the argument bytes. -/
def getIhSize (b : Buf) (p : Nat) : Except Err Nat := do
  let s ← getArgSize b p
  pure (1 + s)

/-- `ih::get_arg`: decoded argument.  Indefinite (ai 31) throws when a
definite argument is required. -/
def getArg (b : Buf) (p : Nat) : Except Err Nat :=
  let ai := getAi b p
  if ai ≤ 23 then .ok ai
  else if ai = 24 then .ok (rd b (p + 1))
  else if ai = 25 then .ok (readBE b (p + 1) 2)
  else if ai = 26 then .ok (readBE b (p + 1) 4)
  else if ai = 27 then .ok (readBE b (p + 1) 8)
  else if ai ≤ 30 then .error .malformedHead
  else .error .unsupportedFeature

/-- `ih::get_data_size`: payload length for bytes/utf8, zero otherwise. -/
def getDataSize (b : Buf) (p : Nat) : Except Err Nat :=
  if getMajor b p = 2 ∨ getMajor b p = 3 then getArg b p else .ok 0

/-- `ih::get_size`: head size plus data size. -/
def getSize (b : Buf) (p : Nat) : Except Err Nat := do
  let ih ← getIhSize b p
  let d ← getDataSize b p
  pure (ih + d)

/-- `ih::make(major, argument, span)`: the shortest head encoding of the
argument.  The C++ takes the argument as `uint64_t`; the initial byte is
`major << 5 | additional-information`.  (The inner `ih::make` would
throw `std::invalid_argument` for a major above 7; every call site uses
majors 0–7.) -/
def encodeHead (m a : Nat) : List Nat :=
  if a ≤ 23 then [32 * m + a]
  else if a ≤ 255 then [32 * m + 24, a]
  else if a ≤ 65535 then (32 * m + 25) :: beBytes 2 a
  else if a ≤ 4294967295 then (32 * m + 26) :: beBytes 4 a
  else (32 * m + 27) :: beBytes 8 a

/-! ## Navigation cursors (`codec::itr__`) -/

/-- A cursor: byte offset into the buffer, container-scope counter, and
index within the scope (`data_`, `cont_`, `idx_`). -/
structure Itr where
  data : Nat
  cont : Nat
  idx : Nat
deriving DecidableEq, Repr

/-- `itr__::enter_container`: step past the current item's head
(`data_ + ih::get_size(data_)`), bump the scope counter, reset the
index. -/
def enterContainer (b : Buf) (it : Itr) : Except Err Itr := do
  let sz ← getSize b it.data
  pure ⟨it.data + sz, it.cont + 1, 0⟩

/-- `itr__::next_item`: step past the current item's head and payload,
same scope, next index. -/
def nextItem (b : Buf) (it : Itr) : Except Err Itr := do
  let sz ← getSize b it.data
  pure ⟨it.data + sz, it.cont, it.idx + 1⟩

/-- `data_item::untag`: requires a tag item, then enters it. -/
def untagIt (b : Buf) (it : Itr) : Except Err Itr :=
  if getMajor b it.data = 6 then enterContainer b it
  else .error .wrongKind

mutual
/-- `data_item::next`: skip to the next sibling.  Arrays are skipped by
`array_item(it_).end()`, i.e. `enter_container() + argument` child
steps.  For maps the C++ has `assert(!"todo")`, which is inactive under
`NDEBUG` and falls through to the tag case, whose `untag()` throws its
wrong-kind error (`"data is not tagged"`); with assertions enabled it
aborts instead.  Tags are skipped via `untag().next()`.  Everything
else is `next_item()`. -/
def diNext (fuel : Nat) (b : Buf) (it : Itr) : Except Err Itr :=
  match fuel with
  | 0 => .error .noFuel
  | f + 1 =>
    if getMajor b it.data = 4 then do
      let n ← getArg b it.data
      let fst ← enterContainer b it
      codecNext f b fst n
    else if getMajor b it.data = 5 ∨ getMajor b it.data = 6 then do
      let inner ← untagIt b it
      diNext f b inner
    else
      nextItem b it

/-- `codec::next(it, n)`: `n` sequential `data_item::next` steps. -/
def codecNext (fuel : Nat) (b : Buf) (it : Itr) (n : Nat) : Except Err Itr :=
  match fuel, n with
  | _, 0 => .ok it
  | 0, _ + 1 => .error .noFuel
  | f + 1, n + 1 => do
    let it' ← diNext f b it
    codecNext f b it' n
end

/-- The loop at the head of `codec::prev`:
`tmp = begin(); while (tmp.cont_ != it.cont_) tmp = tmp.next_item();`.
`next_item` never changes `cont_`, so for a non-zero target the C++
walks off the end of the buffer (undefined behaviour, fuel here). -/
def walkToCont (fuel : Nat) (b : Buf) (it : Itr) (target : Nat) : Except Err Itr :=
  if it.cont = target then .ok it
  else
    match fuel with
    | 0 => .error .noFuel
    | f + 1 => do
      let it' ← nextItem b it
      walkToCont f b it' target

/-- `codec::prev(it, n)`: re-walk forward from `begin()` to the
cursor's scope, then take `idx − n` next-steps.  (`idx_ - n` is
`size_type` arithmetic, debug-asserted `n ≤ idx_`; the claims only
concern `n ≤ idx`, where it agrees with truncated subtraction.) -/
def codecPrev (fuel : Nat) (b : Buf) (it : Itr) (n : Nat) : Except Err Itr := do
  let tmp ← walkToCont fuel b ⟨0, 0, 0⟩ it.cont
  codecNext fuel b tmp (it.idx - n)

/-- The loop of `codec::size()`:
`auto it = begin(); while (it.data_ != std::end(s_)) ++it; return it.idx_;`.
Each `++it` is one `data_item::next` step. -/
def codecSizeAux (fuel : Nat) (b : Buf) (it : Itr) : Except Err Nat :=
  if it.data = b.length then .ok it.idx
  else
    match fuel with
    | 0 => .error .noFuel
    | f + 1 => do
      let it' ← diNext f b it
      codecSizeAux f b it'

/-- `codec::size()`. -/
def codecSize (fuel : Nat) (b : Buf) : Except Err Nat :=
  codecSizeAux fuel b ⟨0, 0, 0⟩

/-! ## Scalar decode (`data_item::get` and friends) -/

/-- The integral widths `get<T>` can be instantiated at. -/
inductive IW where
  | w8
  | w16
  | w32
  | w64
deriving DecidableEq, Repr

def IW.bits : IW → Nat
  | .w8 => 8
  | .w16 => 16
  | .w32 => 32
  | .w64 => 64

/-- C++20 conversion to a `w`-bit integral type: reduce modulo `2^w`,
then interpret in two's complement when the target is signed. -/
def narrowCast (w : Nat) (signed : Bool) (v : Int) : Int :=
  let m := v % ((2 ^ w : Nat) : Int)
  if signed ∧ m ≥ ((2 ^ (w - 1) : Nat) : Int) then m - ((2 ^ w : Nat) : Int) else m

/-- `data_item::get<T>` for a non-bool integral `T` of width `w`.
posint: `v = get_arg(d)`, then re-widen `static_cast<uint64_t>(v)` and
compare with the argument.  negint: arguments above `int64` max throw,
else `v = -1 - (int64_t)arg`, re-widen `static_cast<int64_t>(v)` and
compare.  Other majors throw the wrong-kind error. -/
def getInt (w : IW) (signed : Bool) (b : Buf) (p : Nat) : Except Err Int :=
  if getMajor b p = 0 then do
    let a ← getArg b p
    let v := narrowCast w.bits signed (a : Int)
    if (v % ((2 ^ 64 : Nat) : Int)).toNat ≠ a then .error .overflow
    else .ok v
  else if getMajor b p = 1 then do
    let a ← getArg b p
    if a > 2 ^ 63 - 1 then .error .overflow
    else
      let v := narrowCast w.bits signed (-1 - (a : Int))
      if narrowCast 64 true v ≠ -1 - (a : Int) then .error .overflow
      else .ok v
  else .error .wrongKind

/-- `data_item::get<bool>`: only the two fixed boolean head bytes. -/
def getBool (b : Buf) (p : Nat) : Except Err Bool :=
  if rd b p = 0xf4 then .ok false
  else if rd b p = 0xf5 then .ok true
  else .error .wrongKind

/-- `data_item::get_tag`. -/
def getTag (b : Buf) (p : Nat) : Except Err Nat :=
  if getMajor b p ≠ 6 then .error .wrongKind
  else getArg b p

/-- `data_item::get_bytes`: zero-copy slice of the payload region. -/
def getBytes (b : Buf) (p : Nat) : Except Err (List Nat) :=
  if getMajor b p ≠ 2 then .error .wrongKind
  else do
    let ih ← getIhSize b p
    let d ← getDataSize b p
    pure ((b.drop (p + ih)).take d)

/-- `data_item::get_string`. -/
def getString (b : Buf) (p : Nat) : Except Err (List Nat) :=
  if getMajor b p ≠ 3 then .error .wrongKind
  else do
    let ih ← getIhSize b p
    let d ← getDataSize b p
    pure ((b.drop (p + ih)).take d)

/-! ## IEEE 754 bit-level model for the floating-point paths

Floating values are represented by their bit patterns (a `Nat` below
`2^32` or `2^64`).  The C++ only ever inspects floats through
`isnan/isinf`, exact equality with a narrowing round trip, and raw
big-endian stores/loads, all of which are bit-level operations. -/

/-- The floating widths `T` ranges over. -/
inductive FW where
  | f32
  | f64
deriving DecidableEq, Repr

def isNan32 (f : Nat) : Bool := f / 2 ^ 23 % 2 ^ 8 == 255 && f % 2 ^ 23 != 0

def isInf32 (f : Nat) : Bool := f / 2 ^ 23 % 2 ^ 8 == 255 && f % 2 ^ 23 == 0

def isNan64 (d : Nat) : Bool := d / 2 ^ 52 % 2 ^ 11 == 2047 && d % 2 ^ 52 != 0

def isInf64 (d : Nat) : Bool := d / 2 ^ 52 % 2 ^ 11 == 2047 && d % 2 ^ 52 == 0

/-- `std::numeric_limits<T>::quiet_NaN()`. -/
def qnanBits : FW → Nat
  | .f32 => 0x7fc00000
  | .f64 => 0x7ff8000000000000

/-- `std::numeric_limits<T>::infinity()`. -/
def posInfBits : FW → Nat
  | .f32 => 0x7f800000
  | .f64 => 0x7ff0000000000000

/-- `-std::numeric_limits<T>::infinity()`. -/
def negInfBits : FW → Nat
  | .f32 => 0xff800000
  | .f64 => 0xfff0000000000000

/-- Exact widening `float → double` (value-preserving; NaNs widen with
the quiet bit set and the payload shifted, as hardware does). -/
def f32_to_f64 (f : Nat) : Nat :=
  let s := f / 2 ^ 31 % 2
  let e := f / 2 ^ 23 % 2 ^ 8
  let m := f % 2 ^ 23
  if e = 255 then
    if m = 0 then s * 2 ^ 63 + 2047 * 2 ^ 52
    else s * 2 ^ 63 + 2047 * 2 ^ 52 + (m ||| 2 ^ 22) * 2 ^ 29
  else if e = 0 then
    if m = 0 then s * 2 ^ 63
    else s * 2 ^ 63 + (Nat.log2 m + 874) * 2 ^ 52 + (m - 2 ^ Nat.log2 m) * 2 ^ (52 - Nat.log2 m)
  else s * 2 ^ 63 + (e + 896) * 2 ^ 52 + m * 2 ^ 29

/-- Exact narrowing `double → float`: `some f` exactly when the double
value is representable as a float (then `f` is its unique float image,
and C++ `v = (float)vd; v == vd` holds), `none` otherwise (including
every NaN, for which `v != vd` is always true). -/
def f64_to_f32_exact (d : Nat) : Option Nat :=
  let s := d / 2 ^ 63 % 2
  let e := d / 2 ^ 52 % 2 ^ 11
  let m := d % 2 ^ 52
  if e = 2047 then
    if m = 0 then some (s * 2 ^ 31 + 255 * 2 ^ 23) else none
  else if e = 0 then
    if m = 0 then some (s * 2 ^ 31) else none
  else if 897 ≤ e ∧ e ≤ 1150 then
    if m % 2 ^ 29 = 0 then some (s * 2 ^ 31 + (e - 896) * 2 ^ 23 + m / 2 ^ 29) else none
  else if 874 ≤ e ∧ e ≤ 896 then
    if (2 ^ 52 + m) % 2 ^ (926 - e) = 0 then some (s * 2 ^ 31 + (2 ^ 52 + m) / 2 ^ (926 - e))
    else none
  else none

/-- `data_item::get<T>` for floating `T` of width `w`; the result is the
returned value's bit pattern.  fp16 heads accept exactly the three
emitted patterns (after rejecting any nonzero trailing byte) and return
the canonical NaN/±infinity of `T`.  fp32 heads read the payload as a
float (widened exactly when `T` is double).  fp64 heads narrow to `T`,
re-widen and compare: for `T = double` the comparison `v != vd` fails
exactly on NaN payloads; for `T = float` it fails unless the value is
exactly representable, which `f64_to_f32_exact` decides. -/
def getFloat (w : FW) (b : Buf) (p : Nat) : Except Err Nat :=
  if rd b p = 0xf9 then
    if rd b (p + 2) ≠ 0 then .error .unsupportedFeature
    else if rd b (p + 1) = 0x7e then .ok (qnanBits w)
    else if rd b (p + 1) = 0x7c then .ok (posInfBits w)
    else if rd b (p + 1) = 0xfc then .ok (negInfBits w)
    else .error .unsupportedFeature
  else if rd b p = 0xfa then
    match w with
    | .f32 => .ok (readBE b (p + 1) 4)
    | .f64 => .ok (f32_to_f64 (readBE b (p + 1) 4))
  else if rd b p = 0xfb then
    match w with
    | .f64 =>
      if isNan64 (readBE b (p + 1) 8) then .error .lossyConversion
      else .ok (readBE b (p + 1) 8)
    | .f32 =>
      match f64_to_f32_exact (readBE b (p + 1) 8) with
      | some f => .ok f
      | none => .error .lossyConversion
  else .error .wrongKind

/-- `codec::encode` for a `float` value with bits `bits`.  NaN and the
infinities become the three 2-byte half-float patterns.  Otherwise the
code intends a 5-byte fp32 item but `write_be(&b[1], &v)` stores the
big-endian image of the ADDRESS of `v` — an 8-byte pointer — instead of
the value, overrunning the 5-byte array (undefined behaviour).  We model
the 5 declared bytes, the payload being the first 4 bytes of the
big-endian pointer image; `addr` is the indeterminate address. -/
def encodeFloat32 (addr : Nat) (bits : Nat) : List Nat :=
  if isNan32 bits then [0xf9, 0x7e, 0x00]
  else if isInf32 bits then [0xf9, if bits / 2 ^ 31 % 2 = 0 then 0x7c else 0xfc, 0x00]
  else 0xfa :: (beBytes 8 addr).take 4

/-- `codec::encode` for a `double` value with bits `bits`.  NaN and the
infinities become the three half-float patterns.  A double that equals
its float narrowing is re-encoded through the float overload.  The
remaining case intends a 9-byte fp64 item, but the initializer is
`sizeof v == 4 ? ih::fp32 : ih::fp32` — the head byte is always the
fp32 head `0xfa` — and `write_be(&b[1], &v)` again stores the 8-byte
big-endian image of the address rather than the value. -/
def encodeFloat64 (addr : Nat) (bits : Nat) : List Nat :=
  if isNan64 bits then [0xf9, 0x7e, 0x00]
  else if isInf64 bits then [0xf9, if bits / 2 ^ 63 % 2 = 0 then 0x7c else 0xfc, 0x00]
  else
    match f64_to_f32_exact bits with
    | some f => encodeFloat32 addr f
    | none => 0xfa :: beBytes 8 addr

/-! ## Builder values (`cbor::item`) and the encode path -/

/-- The closed union of literal value kinds (`cbor::item` plus the plain
overloads of `codec::encode`).  Text is carried as its byte image; a
double is carried by bit pattern. -/
inductive BItem where
  | bytes (v : List Nat)
  | str (v : List Nat)
  | int (v : Int)
  | uint (v : Nat)
  | null
  | arr (v : List BItem)
  | mp (v : List (BItem × BItem))
  | tagged (t : Nat) (i : BItem)
  | dbl (bits : Nat)
  | bool (v : Bool)
  | undef

mutual
/-- `codec::encode`, one overload per value kind, producing the byte run
appended for the value.  Integers pick negint/posint by sign with
magnitude `-v - 1` for negatives (`-v - 1` overflows for `int64` min in
C++; the model computes the two's-complement value the implementation
produces).  Tags reject the three reserved sentinel values.  `addr` is
the indeterminate address used by the broken floating-point store. -/
def encodeB (addr : Nat) : BItem → Except Err (List Nat)
  | .bytes v => .ok (encodeHead 2 v.length ++ v)
  | .str v => .ok (encodeHead 3 v.length ++ v)
  | .int v =>
    .ok (encodeHead (if v < 0 then 1 else 0) (if v < 0 then (-v - 1).toNat else v.toNat))
  | .uint v => .ok (encodeHead 0 v)
  | .null => .ok [0xf6]
  | .arr l => do
    let cs ← encodeBList addr l
    pure (encodeHead 4 l.length ++ cs)
  | .mp l => do
    let cs ← encodeBPairs addr l
    pure (encodeHead 5 l.length ++ cs)
  | .tagged t i =>
    if t = 65535 ∨ t = 4294967295 ∨ t = 18446744073709551615 then .error .invalidTagValue
    else do
      let ci ← encodeB addr i
      pure (encodeHead 6 t ++ ci)
  | .dbl bits => .ok (encodeFloat64 addr bits)
  | .bool v => .ok [if v then 0xf5 else 0xf4]
  | .undef => .ok [0xf7]

/-- The encodings of a list of values, concatenated in order (the net
effect of `codec::encode_sequence` / the array encode loop). -/
def encodeBList (addr : Nat) : List BItem → Except Err (List Nat)
  | [] => .ok []
  | v :: vs => do
    let e ← encodeB addr v
    let es ← encodeBList addr vs
    pure (e ++ es)

/-- Alternating key/value encodings of map pairs, in insertion order. -/
def encodeBPairs (addr : Nat) : List (BItem × BItem) → Except Err (List Nat)
  | [] => .ok []
  | (k, v) :: ps => do
    let ek ← encodeB addr k
    let ev ← encodeB addr v
    let es ← encodeBPairs addr ps
    pure (ek ++ ev ++ es)
end

/-! ## Mutation (`codec` extensions and `array_item::push_back`) -/

/-- `codec::push_back`: encode the values at the end of the buffer. -/
def codecPushBack (addr : Nat) (b : Buf) (vs : List BItem) : Except Err Buf := do
  let e ← encodeBList addr vs
  pure (b ++ e)

/-- `codec::replace(iterator, const item &)`: erase the byte span of the
item at `pos` (up to `next(p)`), then encode the new value there. -/
def replaceWithValue (fuel addr : Nat) (b : Buf) (pos : Nat) (v : BItem) :
    Except Err Buf := do
  let nxt ← diNext fuel b ⟨pos, 0, 0⟩
  let b' := b.take pos ++ b.drop nxt.data
  let e ← encodeB addr v
  pure (b'.take pos ++ e ++ b'.drop pos)

/-- `codec::replace(iterator, const_iterator)`: copy the source item's
bytes (`v.data_` up to `next(v).data_`) into a temporary, erase the
target's span, insert the copy at the target position. -/
def replaceWithIter (fuel : Nat) (b : Buf) (pos vpos : Nat) : Except Err Buf := do
  let vnxt ← diNext fuel b ⟨vpos, 0, 0⟩
  let tmp := (b.take vnxt.data).drop vpos
  let pnxt ← diNext fuel b ⟨pos, 0, 0⟩
  let b' := b.take pos ++ b.drop pnxt.data
  pure (b'.take pos ++ tmp ++ b'.drop pos)

/-- `array_item::push_back`: measure the array's byte span by walking
its `argument` children (`end()`), rewrite its head for the new count
via `codec::set_ih_arg` (minimal re-encoding, growing or shrinking the
buffer by the head-size difference), then append the new values'
encodings at the end of the resized span. -/
def arrayPushBack (fuel addr : Nat) (b : Buf) (pos : Nat) (vs : List BItem) :
    Except Err Buf := do
  let n ← getArg b pos
  let fst ← enterContainer b ⟨pos, 0, 0⟩
  let e ← codecNext fuel b fst n
  let sz := e.data - pos
  let osz ← getIhSize b pos
  let nh := encodeHead (getMajor b pos) (n + vs.length)
  let b' := b.take pos ++ nh ++ b.drop (pos + osz)
  let sz' := sz - osz + nh.length
  let enc ← encodeBList addr vs
  pure (b'.take (pos + sz') ++ enc ++ b'.drop (pos + sz'))

/-- `array_item::operator[]`: enter the array and take `i` next-steps;
returns the child's cursor. -/
def arrayIndex (fuel : Nat) (b : Buf) (pos : Nat) (i : Nat) : Except Err Itr := do
  let fst ← enterContainer b ⟨pos, 0, 0⟩
  codecNext fuel b fst i

/-! ## Well-formed wire items

`CItem` is the shape of one complete, definite-length encoded data item
(§3 of the spec); `ser` is its byte image, with every head produced by
the minimal head encoder.  These are used to state the structural
navigation and mutation properties. -/

inductive CItem where
  | posint (a : Nat)
  | negint (a : Nat)
  | bytes (payload : List Nat)
  | utf8 (payload : List Nat)
  | arr (children : List CItem)
  | tagged (t : Nat) (inner : CItem)
  | mp (pairs : List (CItem × CItem))
  | simple (v : Nat)

mutual
/-- The encoded bytes of a wire item (head per `ih::make`, then payload
or children).  `simple v` is a special item with inline additional
information `v` (false/true/null/undefined are 20–23). -/
def ser : CItem → List Nat
  | .posint a => encodeHead 0 a
  | .negint a => encodeHead 1 a
  | .bytes p => encodeHead 2 p.length ++ p
  | .utf8 p => encodeHead 3 p.length ++ p
  | .arr cs => encodeHead 4 cs.length ++ serList cs
  | .tagged t i => encodeHead 6 t ++ ser i
  | .mp ps => encodeHead 5 ps.length ++ serPairs ps
  | .simple v => [224 + v]

def serList : List CItem → List Nat
  | [] => []
  | c :: cs => ser c ++ serList cs

def serPairs : List (CItem × CItem) → List Nat
  | [] => []
  | (k, v) :: ps => ser k ++ ser v ++ serPairs ps
end

mutual
/-- Items over which `data_item::next` is defined: maps are excluded
(their skip is unimplemented), inline special values stay below 24, and
payload lengths / child counts fit the 64-bit argument. -/
def SkipOK : CItem → Prop
  | .posint _ => True
  | .negint _ => True
  | .bytes p => p.length < 2 ^ 64
  | .utf8 p => p.length < 2 ^ 64
  | .arr cs => cs.length < 2 ^ 64 ∧ SkipOKList cs
  | .tagged _ i => SkipOK i
  | .mp _ => False
  | .simple v => v ≤ 23

def SkipOKList : List CItem → Prop
  | [] => True
  | c :: cs => SkipOK c ∧ SkipOKList cs
end

mutual
/-- Fuel sufficient for `data_item::next` to skip the item. -/
def weight : CItem → Nat
  | .arr cs => 1 + weightList cs
  | .tagged _ i => 1 + weight i
  | _ => 1

def weightList : List CItem → Nat
  | [] => 0
  | c :: cs => 1 + weight c + weightList cs
end


/-- The §8 nested-mutation scenario of the spec, step by step: a codec
holding the array [0,1,2,3] (`codec::push_back`), then
`array_item::push_back` of 4..31 one at a time, then of the nested
array ["foo","bar"], then of "baz" and null together. -/
def nestedMutationScenario : Except Err Buf := do
  let b0 ← codecPushBack 0 [] [.arr [.int 0, .int 1, .int 2, .int 3]]
  let b1 ← (List.range 28).foldlM (fun b k => arrayPushBack 40 0 b 0 [.int (4 + k)]) b0
  let b2 ← arrayPushBack 40 0 b1 0
    [.arr [.str [0x66, 0x6f, 0x6f], .str [0x62, 0x61, 0x72]]]
  arrayPushBack 40 0 b2 0 [.str [0x62, 0x61, 0x7a], .null]

/-- The expected final encoding: array(35) with a 2-byte head, children
0..23 inline, 24..31 as 2-byte posints, then ["foo","bar"], "baz",
null. -/
def nestedMutationBytes : Buf :=
  [0x98, 0x23,
   0x00, 0x01, 0x02, 0x03, 0x04, 0x05, 0x06, 0x07, 0x08, 0x09, 0x0a, 0x0b,
   0x0c, 0x0d, 0x0e, 0x0f, 0x10, 0x11, 0x12, 0x13, 0x14, 0x15, 0x16, 0x17,
   0x18, 0x18, 0x18, 0x19, 0x18, 0x1a, 0x18, 0x1b, 0x18, 0x1c, 0x18, 0x1d,
   0x18, 0x1e, 0x18, 0x1f,
   0x82, 0x63, 0x66, 0x6f, 0x6f, 0x63, 0x62, 0x61, 0x72,
   0x63, 0x62, 0x61, 0x7a,
   0xf6]

/-- The head length of the minimal head encoding. -/
def headLen (a : Nat) : Nat :=
  if a ≤ 23 then 1 else if a ≤ 255 then 2 else if a ≤ 65535 then 3
  else if a ≤ 4294967295 then 5 else 9

/-- The additional-information value of the minimal head encoding. -/
def headAi (a : Nat) : Nat :=
  if a ≤ 23 then a else if a ≤ 255 then 24 else if a ≤ 65535 then 25
  else if a ≤ 4294967295 then 26 else 27

/-- The per-item statement of the skip property: `data_item::next` on a
serialized item advances the offset by exactly its encoded length. -/
abbrev SkipStmt (x : CItem) : Prop :=
  ∀ fuel : Nat, weight x ≤ fuel → ∀ (xs ys : Buf) (c i : Nat),
    ∃ c' i', diNext fuel (xs ++ ser x ++ ys) ⟨xs.length, c, i⟩ =
      .ok ⟨xs.length + (ser x).length, c', i'⟩

/-- The per-list statement: stepping over serialized children lands just
past the last child. -/
abbrev SkipStmtList (l : List CItem) : Prop :=
  ∀ fuel : Nat, weightList l ≤ fuel → ∀ (xs ys : Buf) (c i : Nat),
    ∃ c' i', codecNext fuel (xs ++ serList l ++ ys) ⟨xs.length, c, i⟩ l.length =
      .ok ⟨xs.length + (serList l).length, c', i'⟩

instance {ε α : Type} [DecidableEq ε] [DecidableEq α] : DecidableEq (Except ε α) :=
  fun x y =>
    match x, y with
    | .ok a, .ok b =>
      if h : a = b then .isTrue (by rw [h]) else .isFalse (by simp [h])
    | .error e, .error f =>
      if h : e = f then .isTrue (by rw [h]) else .isFalse (by simp [h])
    | .ok _, .error _ => .isFalse (by simp)
    | .error _, .ok _ => .isFalse (by simp)

/-! ## Supporting lemmas: reading heads back out of serialized bytes -/

theorem beBytes_length (k : Nat) : ∀ n, (beBytes k n).length = k := by
  induction k with
  | zero => intro n; rfl
  | succ k ih => intro n; simp [beBytes, ih]

/-- Reading inside the middle block of a three-way concatenation. -/
theorem rd_at (xs zs ys : Buf) (i : Nat) (h : i < zs.length) :
    rd (xs ++ zs ++ ys) (xs.length + i) = rd zs i := by
  unfold rd
  rw [List.append_assoc, List.getD_append_right _ _ _ _ (by omega), Nat.add_sub_cancel_left,
    List.getD_append _ _ _ _ h]

/-- `read_be` recovers the value stored by the big-endian store (modulo
the stored width). -/
theorem readBE_beBytes (k : Nat) : ∀ (n : Nat) (xs ys : Buf),
    readBE (xs ++ beBytes k n ++ ys) xs.length k = n % 256 ^ k := by
  induction k with
  | zero => intro n xs ys; simp [readBE, Nat.mod_one]
  | succ k ih =>
    intro n xs ys
    have hb : xs ++ beBytes (k + 1) n ++ ys =
        xs ++ beBytes k (n / 256) ++ ([n % 256] ++ ys) := by
      simp [beBytes, List.append_assoc]
    have hlast : rd (xs ++ beBytes (k + 1) n ++ ys) (xs.length + k) = n % 256 := by
      rw [hb, show xs ++ beBytes k (n / 256) ++ ([n % 256] ++ ys) =
        (xs ++ beBytes k (n / 256)) ++ [n % 256] ++ ys by simp [List.append_assoc]]
      have := rd_at (xs ++ beBytes k (n / 256)) [n % 256] ys 0 (by simp)
      simpa [rd, beBytes_length, Nat.add_assoc] using this
    have hrest : readBE (xs ++ beBytes (k + 1) n ++ ys) xs.length k = n / 256 % 256 ^ k := by
      rw [hb]; exact ih (n / 256) xs ([n % 256] ++ ys)
    show readBE _ _ k * 256 + rd _ (xs.length + k) = _
    rw [hlast, hrest, Nat.pow_succ', Nat.mod_mul]
    ring

theorem encodeHead_length (m a : Nat) : (encodeHead m a).length = headLen a := by
  unfold encodeHead headLen
  split_ifs <;> simp [beBytes_length]

theorem rd_encodeHead (m a : Nat) (xs ys : Buf) :
    rd (xs ++ encodeHead m a ++ ys) xs.length = 32 * m + headAi a := by
  have hlen : 0 < (encodeHead m a).length := by
    rw [encodeHead_length]; unfold headLen; split_ifs <;> omega
  have h := rd_at xs (encodeHead m a) ys 0 hlen
  rw [Nat.add_zero] at h
  rw [h]
  unfold encodeHead headAi
  split_ifs <;> simp [rd]

theorem getMajor_encodeHead (m a : Nat) (hm : m ≤ 7) (xs ys : Buf) :
    getMajor (xs ++ encodeHead m a ++ ys) xs.length = m := by
  have ha : headAi a ≤ 27 := by unfold headAi; split_ifs <;> omega
  unfold getMajor
  rw [rd_encodeHead]
  omega

theorem getAi_encodeHead (m a : Nat) (hm : m ≤ 7) (xs ys : Buf) :
    getAi (xs ++ encodeHead m a ++ ys) xs.length = headAi a := by
  have ha : headAi a ≤ 27 := by unfold headAi; split_ifs <;> omega
  unfold getAi
  rw [rd_encodeHead]
  omega

theorem getArgSize_encodeHead (m a : Nat) (hm : m ≤ 7) (xs ys : Buf) :
    getArgSize (xs ++ encodeHead m a ++ ys) xs.length = .ok (headLen a - 1) := by
  unfold getArgSize
  rw [getAi_encodeHead m a hm]
  unfold headAi headLen
  split_ifs <;> simp_all <;> omega

theorem getIhSize_encodeHead (m a : Nat) (hm : m ≤ 7) (xs ys : Buf) :
    getIhSize (xs ++ encodeHead m a ++ ys) xs.length = .ok (headLen a) := by
  unfold getIhSize
  rw [getArgSize_encodeHead m a hm]
  have : headLen a ≥ 1 := by unfold headLen; split_ifs <;> omega
  simp [Except.bind]
  omega

theorem getArg_encodeHead (m a : Nat) (hm : m ≤ 7) (ha : a < 2 ^ 64) (xs ys : Buf) :
    getArg (xs ++ encodeHead m a ++ ys) xs.length = .ok a := by
  unfold getArg
  rw [getAi_encodeHead m a hm]
  unfold headAi
  by_cases h1 : a ≤ 23
  · simp [h1, encodeHead]
  by_cases h2 : a ≤ 255
  · have hrd : rd (xs ++ encodeHead m a ++ ys) (xs.length + 1) = a := by
      unfold encodeHead
      rw [if_neg h1, if_pos h2]
      exact rd_at xs _ ys 1 (by simp)
    simp [h1, h2]
    simpa [List.append_assoc] using hrd
  by_cases h3 : a ≤ 65535
  · have hbe : readBE (xs ++ encodeHead m a ++ ys) (xs.length + 1) 2 = a := by
      unfold encodeHead
      rw [if_neg h1, if_neg h2, if_pos h3,
        show xs ++ ((32 * m + 25) :: beBytes 2 a) ++ ys =
          (xs ++ [32 * m + 25]) ++ beBytes 2 a ++ ys by simp,
        show xs.length + 1 = (xs ++ [32 * m + 25]).length by simp]
      rw [readBE_beBytes]
      omega
    simp [h1, h2, h3]
    simpa [List.append_assoc] using hbe
  by_cases h4 : a ≤ 4294967295
  · have hbe : readBE (xs ++ encodeHead m a ++ ys) (xs.length + 1) 4 = a := by
      unfold encodeHead
      rw [if_neg h1, if_neg h2, if_neg h3, if_pos h4,
        show xs ++ ((32 * m + 26) :: beBytes 4 a) ++ ys =
          (xs ++ [32 * m + 26]) ++ beBytes 4 a ++ ys by simp,
        show xs.length + 1 = (xs ++ [32 * m + 26]).length by simp]
      rw [readBE_beBytes]
      omega
    simp [h1, h2, h3, h4]
    simpa [List.append_assoc] using hbe
  · have hbe : readBE (xs ++ encodeHead m a ++ ys) (xs.length + 1) 8 = a := by
      unfold encodeHead
      rw [if_neg h1, if_neg h2, if_neg h3, if_neg h4,
        show xs ++ ((32 * m + 27) :: beBytes 8 a) ++ ys =
          (xs ++ [32 * m + 27]) ++ beBytes 8 a ++ ys by simp,
        show xs.length + 1 = (xs ++ [32 * m + 27]).length by simp]
      rw [readBE_beBytes]
      exact Nat.mod_eq_of_lt ha
    simp [h1, h2, h3, h4]
    simpa [List.append_assoc] using hbe

theorem ebind_ok {α β : Type} (x : α) (f : α → Except Err β) :
    (Except.ok x : Except Err α) >>= f = f x := rfl

theorem getSize_encodeHead (m a : Nat) (hm : m ≤ 7) (h2 : m ≠ 2) (h3 : m ≠ 3) (xs ys : Buf) :
    getSize (xs ++ encodeHead m a ++ ys) xs.length = .ok (headLen a) := by
  unfold getSize
  rw [getIhSize_encodeHead m a hm, ebind_ok]
  unfold getDataSize
  rw [getMajor_encodeHead m a hm, if_neg (by tauto)]
  rfl

theorem getSize_str (m : Nat) (hm : m = 2 ∨ m = 3) (p : List Nat) (hp : p.length < 2 ^ 64)
    (xs ys : Buf) :
    getSize (xs ++ (encodeHead m p.length ++ p) ++ ys) xs.length =
      .ok (headLen p.length + p.length) := by
  have hm7 : m ≤ 7 := by omega
  have hre : xs ++ (encodeHead m p.length ++ p) ++ ys =
      xs ++ encodeHead m p.length ++ (p ++ ys) := by simp
  rw [hre]
  unfold getSize
  rw [getIhSize_encodeHead m p.length hm7, ebind_ok]
  unfold getDataSize
  rw [getMajor_encodeHead m p.length hm7, if_pos hm,
    getArg_encodeHead m p.length hm7 hp]
  rfl

theorem simple_eq_encodeHead (v : Nat) (hv : v ≤ 23) : [224 + v] = encodeHead 7 v := by
  unfold encodeHead
  rw [if_pos hv]

/-! Small-step characterizations of `data_item::next`. -/

theorem diNext_scalar (b : Buf) (it : Itr) (f sz : Nat)
    (h4 : getMajor b it.data ≠ 4) (h5 : getMajor b it.data ≠ 5)
    (h6 : getMajor b it.data ≠ 6) (hsz : getSize b it.data = .ok sz) :
    diNext (f + 1) b it = .ok ⟨it.data + sz, it.cont, it.idx + 1⟩ := by
  simp only [diNext]
  rw [if_neg h4, if_neg (by tauto)]
  unfold nextItem
  rw [hsz]
  rfl

theorem diNext_tag (b : Buf) (it : Itr) (f sz : Nat)
    (hm : getMajor b it.data = 6) (hsz : getSize b it.data = .ok sz) :
    diNext (f + 1) b it = diNext f b ⟨it.data + sz, it.cont + 1, 0⟩ := by
  simp only [diNext]
  rw [if_neg (show ¬ getMajor b it.data = 4 by omega), if_pos (Or.inr hm)]
  unfold untagIt enterContainer
  rw [if_pos hm, hsz]
  rfl

theorem diNext_arr (b : Buf) (it : Itr) (f sz n : Nat)
    (hm : getMajor b it.data = 4) (harg : getArg b it.data = .ok n)
    (hsz : getSize b it.data = .ok sz) :
    diNext (f + 1) b it = codecNext f b ⟨it.data + sz, it.cont + 1, 0⟩ n := by
  simp only [diNext]
  rw [if_pos hm, harg, ebind_ok]
  unfold enterContainer
  rw [hsz]
  rfl

theorem diNext_map (b : Buf) (it : Itr) (f : Nat) (hm : getMajor b it.data = 5) :
    diNext (f + 1) b it = .error .wrongKind := by
  simp only [diNext]
  rw [if_neg (show ¬ getMajor b it.data = 4 by omega), if_pos (Or.inl hm)]
  unfold untagIt
  rw [if_neg (show ¬ getMajor b it.data = 6 by omega)]
  rfl

theorem codecNext_zero (fuel : Nat) (b : Buf) (it : Itr) :
    codecNext fuel b it 0 = .ok it := by
  cases fuel <;> rfl

theorem codecNext_succ (f : Nat) (b : Buf) (it it' : Itr) (n : Nat)
    (h : diNext f b it = .ok it') :
    codecNext (f + 1) b it (n + 1) = codecNext f b it' n := by
  simp only [codecNext]
  rw [h]
  rfl

set_option maxHeartbeats 3200000 in
theorem skip_induction : ∀ n : Nat,
    (∀ x : CItem, sizeOf x ≤ n → SkipOK x → SkipStmt x) ∧
    (∀ l : List CItem, sizeOf l ≤ n → SkipOKList l → SkipStmtList l) := by
  intro n
  induction n with
  | zero =>
    constructor
    · intro x hsz _
      exfalso
      cases x <;> simp at hsz
    · intro l hsz _
      exfalso
      cases l <;> simp at hsz
  | succ n ih =>
    constructor
    · intro x hsz hok
      cases x with
      | posint a =>
        intro fuel hf xs ys c i
        obtain ⟨f, rfl⟩ : ∃ f, fuel = f + 1 := ⟨fuel - 1, by simp [weight] at hf; omega⟩
        have h4 : getMajor (xs ++ encodeHead 0 a ++ ys) xs.length ≠ 4 := by
          rw [getMajor_encodeHead 0 a (by omega)]; omega
        have h5 : getMajor (xs ++ encodeHead 0 a ++ ys) xs.length ≠ 5 := by
          rw [getMajor_encodeHead 0 a (by omega)]; omega
        have h6 : getMajor (xs ++ encodeHead 0 a ++ ys) xs.length ≠ 6 := by
          rw [getMajor_encodeHead 0 a (by omega)]; omega
        have hs := getSize_encodeHead 0 a (by omega) (by omega) (by omega) xs ys
        refine ⟨c, i + 1, ?_⟩
        simp only [ser]
        rw [diNext_scalar _ _ f (headLen a) h4 h5 h6 hs]
        simp [encodeHead_length]
      | negint a =>
        intro fuel hf xs ys c i
        obtain ⟨f, rfl⟩ : ∃ f, fuel = f + 1 := ⟨fuel - 1, by simp [weight] at hf; omega⟩
        have h4 : getMajor (xs ++ encodeHead 1 a ++ ys) xs.length ≠ 4 := by
          rw [getMajor_encodeHead 1 a (by omega)]; omega
        have h5 : getMajor (xs ++ encodeHead 1 a ++ ys) xs.length ≠ 5 := by
          rw [getMajor_encodeHead 1 a (by omega)]; omega
        have h6 : getMajor (xs ++ encodeHead 1 a ++ ys) xs.length ≠ 6 := by
          rw [getMajor_encodeHead 1 a (by omega)]; omega
        have hs := getSize_encodeHead 1 a (by omega) (by omega) (by omega) xs ys
        refine ⟨c, i + 1, ?_⟩
        simp only [ser]
        rw [diNext_scalar _ _ f (headLen a) h4 h5 h6 hs]
        simp [encodeHead_length]
      | bytes p =>
        intro fuel hf xs ys c i
        obtain ⟨f, rfl⟩ : ∃ f, fuel = f + 1 := ⟨fuel - 1, by simp [weight] at hf; omega⟩
        have hp : p.length < 2 ^ 64 := by simpa [SkipOK] using hok
        have hre : xs ++ (encodeHead 2 p.length ++ p) ++ ys =
            xs ++ encodeHead 2 p.length ++ (p ++ ys) := by simp
        have h4 : getMajor (xs ++ encodeHead 2 p.length ++ (p ++ ys)) xs.length ≠ 4 := by
          rw [getMajor_encodeHead 2 p.length (by omega)]; omega
        have h5 : getMajor (xs ++ encodeHead 2 p.length ++ (p ++ ys)) xs.length ≠ 5 := by
          rw [getMajor_encodeHead 2 p.length (by omega)]; omega
        have h6 : getMajor (xs ++ encodeHead 2 p.length ++ (p ++ ys)) xs.length ≠ 6 := by
          rw [getMajor_encodeHead 2 p.length (by omega)]; omega
        have hs := getSize_str 2 (Or.inl rfl) p hp xs ys
        rw [hre] at hs
        refine ⟨c, i + 1, ?_⟩
        simp only [ser]
        rw [hre, diNext_scalar _ _ f (headLen p.length + p.length) h4 h5 h6 hs]
        simp [encodeHead_length, Nat.add_assoc]
      | utf8 p =>
        intro fuel hf xs ys c i
        obtain ⟨f, rfl⟩ : ∃ f, fuel = f + 1 := ⟨fuel - 1, by simp [weight] at hf; omega⟩
        have hp : p.length < 2 ^ 64 := by simpa [SkipOK] using hok
        have hre : xs ++ (encodeHead 3 p.length ++ p) ++ ys =
            xs ++ encodeHead 3 p.length ++ (p ++ ys) := by simp
        have h4 : getMajor (xs ++ encodeHead 3 p.length ++ (p ++ ys)) xs.length ≠ 4 := by
          rw [getMajor_encodeHead 3 p.length (by omega)]; omega
        have h5 : getMajor (xs ++ encodeHead 3 p.length ++ (p ++ ys)) xs.length ≠ 5 := by
          rw [getMajor_encodeHead 3 p.length (by omega)]; omega
        have h6 : getMajor (xs ++ encodeHead 3 p.length ++ (p ++ ys)) xs.length ≠ 6 := by
          rw [getMajor_encodeHead 3 p.length (by omega)]; omega
        have hs := getSize_str 3 (Or.inr rfl) p hp xs ys
        rw [hre] at hs
        refine ⟨c, i + 1, ?_⟩
        simp only [ser]
        rw [hre, diNext_scalar _ _ f (headLen p.length + p.length) h4 h5 h6 hs]
        simp [encodeHead_length, Nat.add_assoc]
      | simple v =>
        intro fuel hf xs ys c i
        obtain ⟨f, rfl⟩ : ∃ f, fuel = f + 1 := ⟨fuel - 1, by simp [weight] at hf; omega⟩
        have hv : v ≤ 23 := by simpa [SkipOK] using hok
        have h4 : getMajor (xs ++ encodeHead 7 v ++ ys) xs.length ≠ 4 := by
          rw [getMajor_encodeHead 7 v (by omega)]; omega
        have h5 : getMajor (xs ++ encodeHead 7 v ++ ys) xs.length ≠ 5 := by
          rw [getMajor_encodeHead 7 v (by omega)]; omega
        have h6 : getMajor (xs ++ encodeHead 7 v ++ ys) xs.length ≠ 6 := by
          rw [getMajor_encodeHead 7 v (by omega)]; omega
        have hs := getSize_encodeHead 7 v (by omega) (by omega) (by omega) xs ys
        refine ⟨c, i + 1, ?_⟩
        simp only [ser]
        rw [simple_eq_encodeHead v hv, diNext_scalar _ _ f (headLen v) h4 h5 h6 hs]
        simp [encodeHead_length]
      | tagged t inner =>
        intro fuel hf xs ys c i
        obtain ⟨f, rfl⟩ : ∃ f, fuel = f + 1 := ⟨fuel - 1, by simp [weight] at hf; omega⟩
        have hwi : weight inner ≤ f := by simp [weight] at hf; omega
        have hre : xs ++ (encodeHead 6 t ++ ser inner) ++ ys =
            xs ++ encodeHead 6 t ++ (ser inner ++ ys) := by simp
        have hm : getMajor (xs ++ encodeHead 6 t ++ (ser inner ++ ys)) xs.length = 6 :=
          getMajor_encodeHead 6 t (by omega) xs (ser inner ++ ys)
        have hs := getSize_encodeHead 6 t (by omega) (by omega) (by omega) xs (ser inner ++ ys)
        obtain ⟨c', i', hih⟩ :=
          ih.1 inner (by simp at hsz; omega) (by simpa [SkipOK] using hok) f hwi
            (xs ++ encodeHead 6 t) ys (c + 1) 0
        refine ⟨c', i', ?_⟩
        simp only [ser]
        rw [hre, diNext_tag _ _ f (headLen t) hm hs]
        have hlen : (xs ++ encodeHead 6 t).length = xs.length + headLen t := by
          simp [encodeHead_length]
        rw [hlen] at hih
        simpa [List.append_assoc, encodeHead_length, Nat.add_assoc] using hih
      | arr cs =>
        intro fuel hf xs ys c i
        obtain ⟨f, rfl⟩ : ∃ f, fuel = f + 1 := ⟨fuel - 1, by simp [weight] at hf; omega⟩
        obtain ⟨hlen, hcs⟩ : cs.length < 2 ^ 64 ∧ SkipOKList cs := by
          simpa [SkipOK] using hok
        have hwl : weightList cs ≤ f := by simp [weight] at hf; omega
        have hre : xs ++ (encodeHead 4 cs.length ++ serList cs) ++ ys =
            xs ++ encodeHead 4 cs.length ++ (serList cs ++ ys) := by simp
        have hm : getMajor (xs ++ encodeHead 4 cs.length ++ (serList cs ++ ys)) xs.length = 4 :=
          getMajor_encodeHead 4 cs.length (by omega) xs (serList cs ++ ys)
        have harg := getArg_encodeHead 4 cs.length (by omega) hlen xs (serList cs ++ ys)
        have hs := getSize_encodeHead 4 cs.length (by omega) (by omega) (by omega)
          xs (serList cs ++ ys)
        obtain ⟨c', i', hih⟩ :=
          ih.2 cs (by simp at hsz; omega) hcs f hwl (xs ++ encodeHead 4 cs.length) ys (c + 1) 0
        refine ⟨c', i', ?_⟩
        simp only [ser]
        rw [hre, diNext_arr _ _ f (headLen cs.length) cs.length hm harg hs]
        have hlen2 : (xs ++ encodeHead 4 cs.length).length = xs.length + headLen cs.length := by
          simp [encodeHead_length]
        rw [hlen2] at hih
        simpa [List.append_assoc, encodeHead_length, Nat.add_assoc] using hih
      | mp ps => exact absurd hok (by simp [SkipOK])
    · intro l hsz hok
      cases l with
      | nil =>
        intro fuel hf xs ys c i
        refine ⟨c, i, ?_⟩
        simp [serList, codecNext_zero]
      | cons c0 cs =>
        have hsz0 : sizeOf c0 ≤ n := by simp at hsz; omega
        have hszl : sizeOf cs ≤ n := by simp at hsz; omega
        intro fuel hf xs ys c i
        obtain ⟨h0, hcs⟩ : SkipOK c0 ∧ SkipOKList cs := by simpa [SkipOKList] using hok
        obtain ⟨f, rfl⟩ : ∃ f, fuel = f + 1 := ⟨fuel - 1, by simp [weightList] at hf; omega⟩
        have hw0 : weight c0 ≤ f := by simp [weightList] at hf; omega
        have hwl : weightList cs ≤ f := by simp [weightList] at hf; omega
        obtain ⟨c1, i1, h1⟩ := ih.1 c0 hsz0 h0 f hw0 xs (serList cs ++ ys) c i
        obtain ⟨c2, i2, h2⟩ := ih.2 cs hszl hcs f hwl (xs ++ ser c0) ys c1 i1
        refine ⟨c2, i2, ?_⟩
        have hre : xs ++ (ser c0 ++ serList cs) ++ ys =
            xs ++ ser c0 ++ (serList cs ++ ys) := by simp
        simp only [serList, List.length_cons]
        rw [hre, codecNext_succ f _ _ _ cs.length h1]
        have hlen : (xs ++ ser c0).length = xs.length + (ser c0).length := by simp
        rw [hlen] at h2
        simpa [List.append_assoc, Nat.add_assoc] using h2

/-- Skipping a serialized item advances the offset by exactly its
encoded length (for every item kind `data_item::next` implements). -/
theorem diNext_ser (x : CItem) (hok : SkipOK x) : SkipStmt x :=
  (skip_induction (sizeOf x)).1 x le_rfl hok

/-- Stepping over the serialized children of a container lands just
past the last child. -/
theorem codecNext_serList (l : List CItem) (hok : SkipOKList l) : SkipStmtList l :=
  (skip_induction (sizeOf l)).2 l le_rfl hok


theorem epure_bind {α β : Type} (x : α) (f : α → Except Err β) :
    (pure x : Except Err α) >>= f = f x := rfl

/-- Every navigation step preserves or increases the scope counter, and
steps that stay in the same scope advance the index by exactly the
number of items stepped over.  (`data_item::next` hands back a
child-scope iterator for containers, so equality of scope counters
pins the step down to plain `next_item` moves.) -/
theorem nav_cont : ∀ fuel : Nat,
    (∀ (b : Buf) (it it' : Itr), diNext fuel b it = .ok it' →
      it.cont ≤ it'.cont ∧ (it'.cont = it.cont → it'.idx = it.idx + 1)) ∧
    (∀ (b : Buf) (it : Itr) (n : Nat) (it' : Itr), codecNext fuel b it n = .ok it' →
      it.cont ≤ it'.cont ∧ (it'.cont = it.cont → it'.idx = it.idx + n)) := by
  intro fuel
  induction fuel with
  | zero =>
    constructor
    · intro b it it' h
      simp [diNext] at h
    · intro b it n it' h
      cases n with
      | zero =>
        simp only [codecNext, Except.ok.injEq] at h
        subst h
        exact ⟨le_rfl, fun _ => rfl⟩
      | succ n => simp [codecNext] at h
  | succ f ih =>
    constructor
    · intro b it it' h
      simp only [diNext] at h
      by_cases h4 : getMajor b it.data = 4
      · rw [if_pos h4] at h
        cases hA : getArg b it.data with
        | error e => rw [hA] at h; cases h
        | ok n =>
          rw [hA, ebind_ok] at h
          unfold enterContainer at h
          cases hS : getSize b it.data with
          | error e => rw [hS] at h; cases h
          | ok sz =>
            rw [hS, ebind_ok, epure_bind] at h
            have := ih.2 b _ n it' h
            simp only at this
            exact ⟨by omega, by omega⟩
      · rw [if_neg h4] at h
        by_cases h56 : getMajor b it.data = 5 ∨ getMajor b it.data = 6
        · rw [if_pos h56] at h
          unfold untagIt at h
          by_cases h6 : getMajor b it.data = 6
          · rw [if_pos h6] at h
            unfold enterContainer at h
            cases hS : getSize b it.data with
            | error e => rw [hS] at h; cases h
            | ok sz =>
              rw [hS, ebind_ok, epure_bind] at h
              have := ih.1 b _ it' h
              simp only at this
              exact ⟨by omega, by omega⟩
          · rw [if_neg h6] at h; cases h
        · rw [if_neg h56] at h
          unfold nextItem at h
          cases hS : getSize b it.data with
          | error e => rw [hS] at h; cases h
          | ok sz =>
            rw [hS, ebind_ok] at h
            cases h
            exact ⟨le_rfl, fun _ => rfl⟩
    · intro b it n it' h
      cases n with
      | zero =>
        simp only [codecNext, Except.ok.injEq] at h
        subst h
        exact ⟨le_rfl, fun _ => rfl⟩
      | succ n =>
        simp only [codecNext] at h
        cases hD : diNext f b it with
        | error e => rw [hD] at h; cases h
        | ok mid =>
          rw [hD, ebind_ok] at h
          have h1 := ih.1 b it mid hD
          have h2 := ih.2 b mid n it' h
          exact ⟨by omega, by omega⟩

/-- The scope-seeking loop of `codec::prev` succeeds only when the
target scope is the scope of `begin()` — `next_item` never changes
`cont_`, so any other target is never reached. -/
theorem walkToCont_ok (fuel : Nat) : ∀ (b : Buf) (it : Itr) (target : Nat) (r : Itr),
    walkToCont fuel b it target = .ok r → it.cont = target := by
  induction fuel with
  | zero =>
    intro b it target r h
    by_cases hc : it.cont = target
    · exact hc
    · rw [show walkToCont 0 b it target = .error .noFuel from by
        unfold walkToCont; rw [if_neg hc]] at h
      cases h
  | succ f ih =>
    intro b it target r h
    by_cases hc : it.cont = target
    · exact hc
    · rw [show walkToCont (f + 1) b it target =
          (nextItem b it >>= fun it' => walkToCont f b it' target) from by
        conv_lhs => unfold walkToCont
        rw [if_neg hc]] at h
      unfold nextItem at h
      cases hS : getSize b it.data with
      | error e => rw [hS] at h; cases h
      | ok sz =>
        rw [hS, ebind_ok, epure_bind] at h
        have := ih b _ target r h
        simp only at this
        exact absurd this hc

theorem walkToCont_self (fuel : Nat) (b : Buf) (it : Itr) (target : Nat)
    (h : it.cont = target) : walkToCont fuel b it target = .ok it := by
  unfold walkToCont
  rw [if_pos h]

theorem rd_lt (b : Buf) (hb : bytesOK b) (p : Nat) : rd b p < 256 := by
  unfold rd List.getD
  cases h : b.get? p with
  | none => simp [h]
  | some x =>
    simp only [h, Option.getD_some]
    exact hb x (List.get?_mem h)

theorem readBE_lt (b : Buf) (hb : bytesOK b) (p : Nat) : ∀ k, readBE b p k < 256 ^ k := by
  intro k
  induction k with
  | zero => simp [readBE]
  | succ k ih =>
    have := rd_lt b hb (p + k)
    show readBE b p k * 256 + rd b (p + k) < 256 ^ (k + 1)
    have h2 : 256 ^ (k + 1) = 256 ^ k * 256 := by ring
    omega

/-- `ih::get_arg` always yields a value below `2^64` on a byte buffer. -/
theorem getArg_lt (b : Buf) (hb : bytesOK b) (p a : Nat) (h : getArg b p = .ok a) :
    a < 2 ^ 64 := by
  simp only [getArg] at h
  have h8 := readBE_lt b hb (p + 1) 8
  have h4 := readBE_lt b hb (p + 1) 4
  have h2 := readBE_lt b hb (p + 1) 2
  have h1 := rd_lt b hb (p + 1)
  split_ifs at h <;> cases h <;> [omega; omega; omega; omega; omega]

/-- `isNan64` NaN patterns are never exactly representable as a float. -/
theorem f64_to_f32_exact_nan (d : Nat) (h : isNan64 d = true) :
    f64_to_f32_exact d = none := by
  simp only [isNan64, Bool.and_eq_true, beq_iff_eq, bne_iff_ne, ne_eq] at h
  unfold f64_to_f32_exact
  rw [if_pos h.1, if_neg h.2]

/-! ## Claim theorems -/

/-- C1 exhibit (code bug): for the finite double 1.1 — bit pattern
0x3FF199999999999A, which requires full 64-bit precision — the encoder
emits the fp32 head byte 0xfa (the `sizeof v == 4 ? ih::fp32 : ih::fp32`
initializer always picks the fp32 head) followed by the 8-byte
big-endian image of the ADDRESS of the value (`write_be(&b[1], &v)`
stores the pointer, not the value), whatever that address is — never
the 0xfb fp64 head and value bytes the claim requires, so
`decode(encode(v))` cannot reproduce `v`. -/
theorem C1_float_encode_bug (addr : Nat) :
    encodeFloat64 addr 0x3FF199999999999A = 0xfa :: beBytes 8 addr ∧
    (0xfa : Nat) ≠ 0xfb := by
  constructor
  · unfold encodeFloat64
    rw [if_neg (by decide), if_neg (by decide),
      show f64_to_f32_exact 0x3FF199999999999A = none from by decide]
  · decide


set_option maxHeartbeats 3200000 in
/-- C4 (amended): the narrow-then-re-widen comparison in the integral
`get<T>` is NOT a complete overflow check.  For a posint item with
argument `a`: an unsigned target raises `Overflow` exactly when
`a ≥ 2^w`; a signed target returns `a` when `a < 2^(w−1)`, but ALSO
accepts (returning the negative reinterpretation of the low `w` bits)
any argument whose 64-bit value is the sign-extension of its low `w`
bits — in particular `get<int64_t>` of any argument `≥ 2^63` returns
`a − 2^64` instead of raising.  For a negint item: arguments above
`int64` max always raise `Overflow` (so decoding argument `2^64−1` as a
64-bit signed integer raises, as claimed); a signed target returns
`−1−a` exactly when it fits; an unsigned 64-bit target returns
`2^64−1−a` instead of raising; other unsigned targets raise.  The
`int64` minimum round-trips exactly. -/
theorem C4_get_int (w : IW) (s : Bool) (b : Buf) (p : Nat) (a : Nat)
    (hb : bytesOK b) (harg : getArg b p = .ok a) :
    (getMajor b p = 0 → getInt w s b p =
      (if s = false then (if a < 2 ^ w.bits then .ok (a : Int) else .error .overflow)
       else if (a : Int) < 2 ^ (w.bits - 1) then .ok (a : Int)
       else if 2 ^ 64 - 2 ^ w.bits + a % 2 ^ w.bits = a ∧ 2 ^ (w.bits - 1) ≤ a % 2 ^ w.bits
         then .ok (((a % 2 ^ w.bits : Nat) : Int) - ((2 ^ w.bits : Nat) : Int))
       else .error .overflow)) ∧
    (getMajor b p = 1 → getInt w s b p =
      (if 2 ^ 63 ≤ a then .error .overflow
       else if s = true ∧ a < 2 ^ (w.bits - 1) then .ok (-1 - (a : Int))
       else if w = .w64 ∧ s = false then .ok (((2 ^ 64 - 1 - a : Nat) : Int))
       else .error .overflow)) ∧
    (encodeB 0 (.int (-(2 ^ 63))) =
      .ok [0x3b, 0x7f, 0xff, 0xff, 0xff, 0xff, 0xff, 0xff, 0xff] ∧
     getInt .w64 true [0x3b, 0x7f, 0xff, 0xff, 0xff, 0xff, 0xff, 0xff, 0xff] 0 =
       .ok (-(2 ^ 63)) ∧
     getInt .w64 true [0x3b, 0xff, 0xff, 0xff, 0xff, 0xff, 0xff, 0xff, 0xff] 0 =
       .error .overflow) := by
  have ha : a < 2 ^ 64 := getArg_lt b hb p a harg
  refine ⟨?_, ?_, by decide, by decide, by decide⟩
  · intro hm
    unfold getInt
    rw [if_pos hm, harg, ebind_ok]
    cases w <;> cases s <;>
      simp only [IW.bits, narrowCast, Bool.false_eq_true, false_and, true_and,
        if_false, eq_self_iff_true] <;>
      split_ifs <;>
      first
        | rfl
        | (exfalso; omega)
        | (simp only [Except.ok.injEq]; omega)
        | simp_all
  · intro hm
    unfold getInt
    rw [if_neg (by omega), if_pos hm, harg, ebind_ok]
    cases w <;> cases s <;>
      simp only [IW.bits, narrowCast, Bool.false_eq_true, false_and, true_and,
        if_false, eq_self_iff_true] <;>
      split_ifs <;>
      first
        | rfl
        | (exfalso; omega)
        | (simp only [Except.ok.injEq]; omega)
        | simp_all

theorem C4_get_int_witness :
    getInt .w8 false [0x18, 0x2a] 0 =
      (if (42 : Nat) < 2 ^ IW.bits .w8 then .ok ((42 : Nat) : Int) else .error .overflow) ∧
    getInt .w64 true [0x3b, 0xff, 0xff, 0xff, 0xff, 0xff, 0xff, 0xff, 0xff] 0 =
      .error .overflow :=
  ⟨((C4_get_int .w8 false [0x18, 0x2a] 0 42 (by unfold bytesOK; decide)
        (by decide)).1 (by decide)).trans (by rw [if_pos (by decide)]),
    (C4_get_int .w8 false [0x18, 0x2a] 0 42 (by unfold bytesOK; decide)
        (by decide)).2.2.2.2⟩

/-- C4 counterexample to the claim as stated: the posint item with
argument `2^63` (bytes `0x1b 0x80 00…`) is not representable in a
signed 64-bit integer, yet `get<int64_t>` does not raise `Overflow`: it
returns `−2^63`.  The narrow-then-re-widen comparison is the identity
round trip for 64-bit targets. -/
theorem C4_counterexample :
    getInt .w64 true [0x1b, 0x80, 0, 0, 0, 0, 0, 0, 0] 0 = .ok (-(2 ^ 63)) ∧
    getArg [0x1b, 0x80, 0, 0, 0, 0, 0, 0, 0] 0 = .ok (2 ^ 63) ∧
    getMajor [0x1b, 0x80, 0, 0, 0, 0, 0, 0, 0] 0 = 0 ∧
    (-(2 ^ 63) : Int) ≠ ((2 ^ 63 : Nat) : Int) := by
  decide

/-- C9: on a 3-byte half-precision item, `get<T>` (for either floating
width `T`) returns the canonical NaN for payload 0x7e00, +∞ for 0x7c00,
−∞ for 0xfc00, and raises `UnsupportedFeature` for every other
half-precision payload, including any pattern with a nonzero trailing
byte. -/
theorem C9_half_float (w : FW) :
    getFloat w [0xf9, 0x7e, 0x00] 0 = .ok (qnanBits w) ∧
    getFloat w [0xf9, 0x7c, 0x00] 0 = .ok (posInfBits w) ∧
    getFloat w [0xf9, 0xfc, 0x00] 0 = .ok (negInfBits w) ∧
    isNan32 (qnanBits .f32) = true ∧ isNan64 (qnanBits .f64) = true ∧
    (∀ d1 d2 : Nat, ¬(d2 = 0 ∧ (d1 = 0x7e ∨ d1 = 0x7c ∨ d1 = 0xfc)) →
      getFloat w [0xf9, d1, d2] 0 = .error .unsupportedFeature) := by
  refine ⟨by cases w <;> rfl, by cases w <;> rfl, by cases w <;> rfl, rfl, rfl, ?_⟩
  intro d1 d2 hno
  unfold getFloat
  rw [show rd [0xf9, d1, d2] 0 = 0xf9 from rfl, if_pos rfl,
    show rd [0xf9, d1, d2] (0 + 2) = d2 from rfl,
    show rd [0xf9, d1, d2] (0 + 1) = d1 from rfl]
  by_cases h2 : d2 = 0
  · rw [if_neg (by omega)]
    rw [if_neg (by intro h; exact hno ⟨h2, Or.inl h⟩),
      if_neg (by intro h; exact hno ⟨h2, Or.inr (Or.inl h)⟩),
      if_neg (by intro h; exact hno ⟨h2, Or.inr (Or.inr h)⟩)]
  · rw [if_pos (by omega)]

theorem C9_half_float_witness :
    getFloat .f32 [0xf9, 0x7e, 0x00] 0 = .ok (qnanBits .f32) ∧
    getFloat .f32 [0xf9, 0x00, 0x01] 0 = .error .unsupportedFeature ∧
    getFloat .f64 [0xf9, 0x7d, 0x00] 0 = .error .unsupportedFeature :=
  ⟨(C9_half_float .f32).1,
    (C9_half_float .f32).2.2.2.2.2 0 1 (by simp),
    (C9_half_float .f64).2.2.2.2.2 0x7d 0 (by simp)⟩

/-- C10: `get<T>` on a 9-byte fp64 item whose payload is any NaN bit
pattern raises `LossyConversion` for every floating target width,
including `T = double` where no narrowing occurs — the narrow/re-widen
equality test `v != vd` is true for NaN — so a 64-bit-encoded NaN can
never be decoded. -/
theorem C10_fp64_nan (w : FW) (payload : List Nat) (hlen : payload.length = 8)
    (hnan : isNan64 (readBE (0xfb :: payload) 1 8) = true) :
    getFloat w (0xfb :: payload) 0 = .error .lossyConversion := by
  unfold getFloat
  rw [show rd (0xfb :: payload) 0 = 0xfb from rfl]
  rw [if_neg (by omega), if_neg (by omega), if_pos rfl]
  cases w with
  | f64 => rw [if_pos hnan]
  | f32 => rw [f64_to_f32_exact_nan _ hnan]

theorem C10_fp64_nan_witness :
    getFloat .f64 (0xfb :: [0x7f, 0xf8, 0, 0, 0, 0, 0, 0]) 0 = .error .lossyConversion ∧
    getFloat .f32 (0xfb :: [0x7f, 0xf8, 0, 0, 0, 0, 0, 0]) 0 = .error .lossyConversion :=
  ⟨C10_fp64_nan .f64 [0x7f, 0xf8, 0, 0, 0, 0, 0, 0] (by decide) (by decide),
    C10_fp64_nan .f32 [0x7f, 0xf8, 0, 0, 0, 0, 0, 0] (by decide) (by decide)⟩

/-- C3: for every major type and argument `a` below `2^64`, the head
encoder emits the shortest legal head — 1 byte if `a ≤ 23`, 2 if
`a ≤ 255`, 3 if `a ≤ 65535`, 5 if `a ≤ 2^32−1`, else 9 — and encoding
the integers 0, 23, 24, 255, 256, 65535, 65536, 4294967295, 4294967296
produces head lengths 1,1,2,2,3,3,5,5,9 respectively. -/
theorem C3_shortest_head (m a : Nat) (ha : a < 2 ^ 64) :
    (encodeHead m a).length =
      (if a ≤ 23 then 1 else if a ≤ 255 then 2 else if a ≤ 65535 then 3
        else if a ≤ 4294967295 then 5 else 9) ∧
    ((encodeB 0 (.int 0)).map List.length = .ok 1 ∧
      (encodeB 0 (.int 23)).map List.length = .ok 1 ∧
      (encodeB 0 (.int 24)).map List.length = .ok 2 ∧
      (encodeB 0 (.int 255)).map List.length = .ok 2 ∧
      (encodeB 0 (.int 256)).map List.length = .ok 3 ∧
      (encodeB 0 (.int 65535)).map List.length = .ok 3 ∧
      (encodeB 0 (.int 65536)).map List.length = .ok 5 ∧
      (encodeB 0 (.int 4294967295)).map List.length = .ok 5 ∧
      (encodeB 0 (.int 4294967296)).map List.length = .ok 9) :=
  ⟨encodeHead_length m a, by decide⟩

theorem C3_shortest_head_witness :
    (encodeHead 0 300).length =
      (if (300 : Nat) ≤ 23 then 1 else if (300 : Nat) ≤ 255 then 2
        else if (300 : Nat) ≤ 65535 then 3
        else if (300 : Nat) ≤ 4294967295 then 5 else 9) ∧
    ((encodeB 0 (.int 0)).map List.length = .ok 1 ∧
      (encodeB 0 (.int 23)).map List.length = .ok 1 ∧
      (encodeB 0 (.int 24)).map List.length = .ok 2 ∧
      (encodeB 0 (.int 255)).map List.length = .ok 2 ∧
      (encodeB 0 (.int 256)).map List.length = .ok 3 ∧
      (encodeB 0 (.int 65535)).map List.length = .ok 3 ∧
      (encodeB 0 (.int 65536)).map List.length = .ok 5 ∧
      (encodeB 0 (.int 4294967295)).map List.length = .ok 5 ∧
      (encodeB 0 (.int 4294967296)).map List.length = .ok 9) :=
  C3_shortest_head 0 300 (by decide)

/-- C5 (amended): `next_sibling` on a map item raises the wrong-kind
error (the map case's `assert(!"todo")` is inactive under `NDEBUG` and
falls through to the tag case, whose `untag()` throws "data is not
tagged"), not `UnsupportedFeature`; in debug builds it aborts via the
assert instead. -/
theorem C5_map_next_wrongKind (b : Buf) (p c i f : Nat) (hm : getMajor b p = 5) :
    diNext (f + 1) b ⟨p, c, i⟩ = .error .wrongKind :=
  diNext_map b ⟨p, c, i⟩ f hm

theorem C5_map_next_wrongKind_witness :
    getMajor [0xa1, 0x00, 0x00] 0 = 5 ∧
    diNext 10 [0xa1, 0x00, 0x00] ⟨0, 0, 0⟩ = .error .wrongKind :=
  ⟨by decide, C5_map_next_wrongKind [0xa1, 0x00, 0x00] 0 0 0 9 (by decide)⟩

/-- C5 counterexample to the claim as stated: on the (empty) map item
`0xa0`, `next_sibling` yields the wrong-kind error, which is a different
error kind than `UnsupportedFeature`. -/
theorem C5_counterexample :
    diNext 10 [0xa0] ⟨0, 0, 0⟩ = .error .wrongKind ∧
    Err.wrongKind ≠ Err.unsupportedFeature := by
  decide

/-- C2 (amended): `next_sibling` advances by exactly `item_size` (head
size, plus payload only for byte/text strings) for posint, negint,
bytes, utf8 and special items; for a tag item it does NOT stop after
the head but skips the head plus the entire enclosed item's subtree;
for an array item it descends into the first child, steps over exactly
`argument` children and lands just past the last child; and for a map
item it raises the wrong-kind error instead of advancing. -/
theorem C2_next_sibling :
    (∀ (b : Buf) (p c i f sz : Nat),
      (getMajor b p = 0 ∨ getMajor b p = 1 ∨ getMajor b p = 2 ∨ getMajor b p = 3 ∨
        getMajor b p = 7) →
      getSize b p = .ok sz →
      diNext (f + 1) b ⟨p, c, i⟩ = .ok ⟨p + sz, c, i + 1⟩) ∧
    (∀ (t : Nat) (inner : CItem) (fuel : Nat) (xs ys : Buf) (c i : Nat),
      SkipOK inner → weight (.tagged t inner) ≤ fuel →
      ∃ c' i', diNext fuel (xs ++ ser (.tagged t inner) ++ ys) ⟨xs.length, c, i⟩ =
        .ok ⟨xs.length + ((encodeHead 6 t).length + (ser inner).length), c', i'⟩) ∧
    (∀ (cs : List CItem) (fuel : Nat) (xs ys : Buf) (c i : Nat),
      cs.length < 2 ^ 64 → SkipOKList cs → weight (.arr cs) ≤ fuel →
      ∃ c' i', diNext fuel (xs ++ ser (.arr cs) ++ ys) ⟨xs.length, c, i⟩ =
        .ok ⟨xs.length + ((encodeHead 4 cs.length).length + (serList cs).length), c', i'⟩) ∧
    (∀ (b : Buf) (p c i f : Nat), getMajor b p = 5 →
      diNext (f + 1) b ⟨p, c, i⟩ = .error .wrongKind) := by
  refine ⟨?_, ?_, ?_, ?_⟩
  · intro b p c i f sz hm hsz
    exact diNext_scalar b ⟨p, c, i⟩ f sz (show getMajor b p ≠ 4 by omega)
      (show getMajor b p ≠ 5 by omega) (show getMajor b p ≠ 6 by omega) hsz
  · intro t inner fuel xs ys c i hok hw
    obtain ⟨c', i', h⟩ := diNext_ser (.tagged t inner) (by simpa [SkipOK] using hok)
      fuel hw xs ys c i
    exact ⟨c', i', by simpa [ser] using h⟩
  · intro cs fuel xs ys c i hlen hok hw
    obtain ⟨c', i', h⟩ := diNext_ser (.arr cs) (by simp [SkipOK]; exact ⟨hlen, hok⟩)
      fuel hw xs ys c i
    exact ⟨c', i', by simpa [ser] using h⟩
  · intro b p c i f hm
    exact diNext_map b ⟨p, c, i⟩ f hm

theorem C2_next_sibling_witness :
    diNext 1 [0x45, 1, 2, 3, 4, 5] ⟨0, 0, 0⟩ = .ok ⟨6, 0, 1⟩ ∧
    (∃ c' i', diNext 2 (([] : Buf) ++ ser (.tagged 0 (.posint 5)) ++ ([] : Buf)) ⟨0, 0, 0⟩ =
      .ok ⟨0 + ((encodeHead 6 0).length + (ser (.posint 5)).length), c', i'⟩) ∧
    (∃ c' i', diNext 5 (([] : Buf) ++ ser (.arr [.posint 1, .posint 2]) ++ ([] : Buf)) ⟨0, 0, 0⟩ =
      .ok ⟨0 +
        ((encodeHead 4 (List.length [CItem.posint 1, CItem.posint 2])).length +
          (serList [CItem.posint 1, CItem.posint 2]).length), c', i'⟩) ∧
    diNext 10 [0xa0] ⟨0, 5, 7⟩ = .error .wrongKind := by
  refine ⟨?_, ?_, ?_, ?_⟩
  · exact C2_next_sibling.1 [0x45, 1, 2, 3, 4, 5] 0 0 0 0 6 (by decide) (by decide)
  · exact C2_next_sibling.2.1 0 (.posint 5) 2 [] [] 0 0 (by simp [SkipOK])
      (by decide)
  · exact C2_next_sibling.2.2.1 [.posint 1, .posint 2] 5 [] [] 0 0 (by decide)
      (by simp [SkipOKList, SkipOK])
      (by decide)
  · exact C2_next_sibling.2.2.2 [0xa0] 0 5 7 9 (by decide)

/-- C2 counterexample to the claim as stated: the tag item `0xc0 0x00`
(tag(0) around unsigned(0)) has `item_size` 1 (head size alone), yet
`next_sibling` from offset 0 lands at offset 2 — the head size alone is
not the distance advanced for tag items. -/
theorem C2_counterexample :
    getSize [0xc0, 0x00] 0 = .ok 1 ∧
    diNext 10 [0xc0, 0x00] ⟨0, 0, 0⟩ = .ok ⟨2, 1, 1⟩ ∧
    (2 : Nat) ≠ 0 + 1 := by
  decide

/-- C8 (amended): `prev` re-walks forward from `begin()` — so for a
cursor in the TOP-LEVEL scope (`cont_ = 0`) with `n ≤ idx`,
`prev(it, n)` equals `next(begin(), idx − n)`, and `prev(next(c)) = c`
whenever the step stays in the top-level scope; but `prev` can only
ever succeed for top-level cursors, because its scope-seeking loop
advances with `next_item`, which never changes `cont_` — for a cursor
in any nested scope the loop never terminates (undefined behaviour,
fuel exhaustion in the model). -/
theorem C8_prev :
    (∀ (fuel : Nat) (b : Buf) (it : Itr) (n : Nat), it.cont = 0 → n ≤ it.idx →
      codecPrev fuel b it n = codecNext fuel b ⟨0, 0, 0⟩ (it.idx - n)) ∧
    (∀ (fuel : Nat) (b : Buf) (i : Nat) (c c' : Itr),
      codecNext fuel b ⟨0, 0, 0⟩ i = .ok c → diNext fuel b c = .ok c' → c'.cont = 0 →
      codecPrev fuel b c' 1 = .ok c) ∧
    (∀ (fuel : Nat) (b : Buf) (it : Itr) (n : Nat) (r : Itr),
      codecPrev fuel b it n = .ok r → it.cont = 0) := by
  refine ⟨?_, ?_, ?_⟩
  · intro fuel b it n hc _
    unfold codecPrev
    rw [walkToCont_self fuel b ⟨0, 0, 0⟩ it.cont hc.symm, ebind_ok]
  · intro fuel b i c c' h1 h2 hc'
    have m1 := (nav_cont fuel).2 b ⟨0, 0, 0⟩ i c h1
    have m2 := (nav_cont fuel).1 b c c' h2
    simp only at m1 m2
    have hcc : c.cont = 0 := by omega
    have hcidx : c.idx = i := by omega
    have hc'idx : c'.idx = i + 1 := by omega
    unfold codecPrev
    rw [hc', walkToCont_self fuel b ⟨0, 0, 0⟩ 0 rfl, ebind_ok, hc'idx]
    simpa using h1
  · intro fuel b it n r h
    unfold codecPrev at h
    cases hW : walkToCont fuel b ⟨0, 0, 0⟩ it.cont with
    | error e => rw [hW] at h; cases h
    | ok tmp =>
      have := walkToCont_ok fuel b ⟨0, 0, 0⟩ it.cont tmp hW
      simpa using this.symm

theorem C8_prev_witness :
    codecPrev 10 [0x00, 0x01] ⟨1, 0, 1⟩ 1 = codecNext 10 [0x00, 0x01] ⟨0, 0, 0⟩ (1 - 1) ∧
    codecPrev 10 [0x00, 0x01] ⟨1, 0, 1⟩ 1 = .ok ⟨0, 0, 0⟩ := by
  constructor
  · exact C8_prev.1 10 [0x00, 0x01] ⟨1, 0, 1⟩ 1 rfl (by decide)
  · exact C8_prev.2.1 10 [0x00, 0x01] 0 ⟨0, 0, 0⟩ ⟨1, 0, 1⟩ (by decide) (by decide) rfl

/-- C8 counterexample to the claim as stated: inside the array `[0]`
(bytes `0x81 0x00`), the first-child cursor is `⟨1, 1, 0⟩`; stepping to
its next sibling gives `⟨2, 1, 1⟩`, but `prev` of that cursor never
terminates (it exhausts any fuel; here 100) instead of returning the
child cursor — `prev(next(c)) = c` fails in a nested scope. -/
theorem C8_counterexample :
    enterContainer [0x81, 0x00] ⟨0, 0, 0⟩ = .ok ⟨1, 1, 0⟩ ∧
    diNext 4 [0x81, 0x00] ⟨1, 1, 0⟩ = .ok ⟨2, 1, 1⟩ ∧
    codecPrev 4 [0x81, 0x00] ⟨2, 1, 1⟩ 1 = .error .noFuel := by
  decide

theorem take_mid_slice (A s ys : Buf) :
    ((A ++ s ++ ys).take (A.length + s.length)).drop A.length = s := by
  rw [show A ++ s ++ ys = (A ++ s) ++ ys by simp,
    show A.length + s.length = (A ++ s).length by simp,
    List.take_left, List.drop_left]

theorem take_pre (A s ys : Buf) : (A ++ s ++ ys).take A.length = A := by
  rw [List.append_assoc]
  exact List.take_left A (s ++ ys)

theorem drop_post (A s ys : Buf) : (A ++ s ++ ys).drop (A.length + s.length) = ys := by
  rw [show A ++ s ++ ys = (A ++ s) ++ ys by simp,
    show A.length + s.length = (A ++ s).length by simp,
    List.drop_left]

theorem replaceWithValue_ser (xs ys enc : Buf) (x : CItem) (v : BItem) (fuel addr : Nat)
    (hok : SkipOK x) (hw : weight x ≤ fuel) (henc : encodeB addr v = .ok enc) :
    replaceWithValue fuel addr (xs ++ ser x ++ ys) xs.length v = .ok (xs ++ enc ++ ys) := by
  obtain ⟨c', i', hnxt⟩ := diNext_ser x hok fuel hw xs ys 0 0
  unfold replaceWithValue
  rw [hnxt, ebind_ok, henc, ebind_ok]
  have e1 : (⟨xs.length + (ser x).length, c', i'⟩ : Itr).data =
      xs.length + (ser x).length := rfl
  rw [e1, take_pre, drop_post, List.take_left, List.drop_left]
  rfl

theorem replaceWithIter_ser (xs mid ys : Buf) (x y : CItem) (fuel : Nat)
    (hokx : SkipOK x) (hoky : SkipOK y) (hwx : weight x ≤ fuel) (hwy : weight y ≤ fuel) :
    replaceWithIter fuel (xs ++ ser x ++ mid ++ ser y ++ ys) xs.length
        (xs ++ ser x ++ mid).length =
      .ok (xs ++ ser y ++ mid ++ ser y ++ ys) := by
  obtain ⟨cv, iv, hv⟩ := diNext_ser y hoky fuel hwy (xs ++ ser x ++ mid) ys 0 0
  obtain ⟨cp, ip, hp⟩ := diNext_ser x hokx fuel hwx xs (mid ++ ser y ++ ys) 0 0
  have hb2 : xs ++ ser x ++ mid ++ ser y ++ ys =
      xs ++ ser x ++ (mid ++ ser y ++ ys) := by simp
  rw [← hb2] at hp
  have e1 : (⟨(xs ++ ser x ++ mid).length + (ser y).length, cv, iv⟩ : Itr).data =
      (xs ++ ser x ++ mid).length + (ser y).length := rfl
  have e2 : (⟨xs.length + (ser x).length, cp, ip⟩ : Itr).data =
      xs.length + (ser x).length := rfl
  have htmp : ((xs ++ ser x ++ mid ++ ser y ++ ys).take
      ((xs ++ ser x ++ mid).length + (ser y).length)).drop (xs ++ ser x ++ mid).length =
      ser y := take_mid_slice (xs ++ ser x ++ mid) (ser y) ys
  have htk : (xs ++ ser x ++ mid ++ ser y ++ ys).take xs.length = xs := by
    rw [hb2]
    exact take_pre xs (ser x) (mid ++ ser y ++ ys)
  have hdp : (xs ++ ser x ++ mid ++ ser y ++ ys).drop (xs.length + (ser x).length) =
      mid ++ ser y ++ ys := by
    rw [hb2]
    exact drop_post xs (ser x) (mid ++ ser y ++ ys)
  have htk2 : (xs ++ (mid ++ ser y ++ ys)).take xs.length = xs :=
    List.take_left xs (mid ++ ser y ++ ys)
  have hdp2 : (xs ++ (mid ++ ser y ++ ys)).drop xs.length = mid ++ ser y ++ ys :=
    List.drop_left xs (mid ++ ser y ++ ys)
  unfold replaceWithIter
  simp only [hv, ebind_ok, e1, htmp, hp, e2, htk, hdp, htk2, hdp2]
  simp only [show ∀ l : Buf, (pure l : Except Err Buf) = Except.ok l from fun _ => rfl,
    Except.ok.injEq]
  simp


theorem arrayPushBack_ser (xs ys enc : Buf) (cs : List CItem) (vs : List BItem)
    (fuel addr : Nat) (hok : SkipOKList cs) (hlen : cs.length < 2 ^ 64)
    (hw : weightList cs ≤ fuel) (henc : encodeBList addr vs = .ok enc) :
    arrayPushBack fuel addr (xs ++ (encodeHead 4 cs.length ++ serList cs) ++ ys)
        xs.length vs =
      .ok (xs ++ (encodeHead 4 (cs.length + vs.length) ++ (serList cs ++ enc)) ++ ys) := by
  have hre : xs ++ (encodeHead 4 cs.length ++ serList cs) ++ ys =
      xs ++ encodeHead 4 cs.length ++ (serList cs ++ ys) := by simp
  have harg := getArg_encodeHead 4 cs.length (by omega) hlen xs (serList cs ++ ys)
  have hih := getIhSize_encodeHead 4 cs.length (by omega) xs (serList cs ++ ys)
  have hmaj := getMajor_encodeHead 4 cs.length (by omega) xs (serList cs ++ ys)
  have hs := getSize_encodeHead 4 cs.length (by omega) (by omega) (by omega)
    xs (serList cs ++ ys)
  have hLh : (encodeHead 4 cs.length).length = headLen cs.length := encodeHead_length 4 _
  set B := xs ++ encodeHead 4 cs.length ++ (serList cs ++ ys) with hB
  have hstepEnter : enterContainer B ⟨xs.length, 0, 0⟩ =
      .ok ⟨xs.length + headLen cs.length, 1, 0⟩ := by
    unfold enterContainer
    rw [hs, ebind_ok]
    rfl
  obtain ⟨c', i', hwalk⟩ := codecNext_serList cs hok fuel hw
    (xs ++ encodeHead 4 cs.length) ys 1 0
  have hlen1 : (xs ++ encodeHead 4 cs.length).length = xs.length + headLen cs.length := by
    simp [hLh]
  rw [hlen1, List.append_assoc (xs ++ encodeHead 4 cs.length) (serList cs) ys] at hwalk
  rw [hre]
  unfold arrayPushBack
  rw [harg, ebind_ok, hstepEnter, ebind_ok, hwalk, ebind_ok, hih, ebind_ok, henc, ebind_ok]
  have htake0 : B.take xs.length = xs := by
    rw [hB, List.append_assoc, List.take_left]
  have hdrop0 : B.drop (xs.length + headLen cs.length) = serList cs ++ ys := by
    rw [hB, ← hlen1, List.drop_left]
  simp only [htake0, hdrop0, hmaj]
  have e1 : (⟨xs.length + headLen cs.length + (serList cs).length, c', i'⟩ : Itr).data -
      xs.length = headLen cs.length + (serList cs).length := by
    simp only []
    omega
  rw [e1]
  set nh := encodeHead 4 (cs.length + vs.length) with hnh
  have hidx : headLen cs.length + (serList cs).length - headLen cs.length + nh.length =
      (serList cs).length + nh.length := by omega
  rw [hidx]
  have hform : xs ++ nh ++ (serList cs ++ ys) = (xs ++ (nh ++ serList cs)) ++ ys := by simp
  have hidx2 : xs.length + ((serList cs).length + nh.length) =
      (xs ++ (nh ++ serList cs)).length := by simp; omega
  rw [hform, hidx2, List.take_left, List.drop_left]
  simp only [show ∀ l : Buf, (pure l : Except Err Buf) = Except.ok l from fun _ => rfl,
    Except.ok.injEq]
  simp


set_option maxRecDepth 40000 in
set_option maxHeartbeats 3200000 in
/-- C6: `array_item::push_back` of `k` values onto an array of `n`
well-formed children minimally re-encodes the array head for `n + k`
(growing or shrinking the head in place), leaves the bytes of the
pre-existing children and of everything before and after the array
unchanged, and places the new values' encodings immediately after the
previous last child; in the spec's scenario — starting from [0,1,2,3],
appending 4..31 one at a time, then ["foo","bar"], then "baz" and null —
the final array declares 35 children (its head having grown from the
1-byte count 4 to a 2-byte count), children 0–31 decode as the integers
equal to their index, child 32 is the array ["foo","bar"], child 33 is
"baz" and child 34 is null. -/
theorem C6_array_push_back :
    (∀ (xs ys enc : Buf) (cs : List CItem) (vs : List BItem) (fuel addr : Nat),
      SkipOKList cs → cs.length < 2 ^ 64 → weightList cs ≤ fuel →
      encodeBList addr vs = .ok enc →
      arrayPushBack fuel addr (xs ++ (encodeHead 4 cs.length ++ serList cs) ++ ys)
          xs.length vs =
        .ok (xs ++ (encodeHead 4 (cs.length + vs.length) ++ (serList cs ++ enc)) ++ ys)) ∧
    (nestedMutationScenario = .ok nestedMutationBytes ∧
     getArg nestedMutationBytes 0 = .ok 35 ∧
     (encodeHead 4 4).length = 1 ∧ (encodeHead 4 23).length = 1 ∧
     (encodeHead 4 24).length = 2 ∧ (encodeHead 4 35).length = 2 ∧
     (∀ i < 32, (arrayIndex 40 nestedMutationBytes 0 i).bind
        (fun it => getInt .w32 true nestedMutationBytes it.data) = .ok i) ∧
     (arrayIndex 40 nestedMutationBytes 0 32).map Itr.data = .ok 42 ∧
     getMajor nestedMutationBytes 42 = 4 ∧ getArg nestedMutationBytes 42 = .ok 2 ∧
     (arrayIndex 40 nestedMutationBytes 42 0).bind
        (fun it => getString nestedMutationBytes it.data) = .ok [0x66, 0x6f, 0x6f] ∧
     (arrayIndex 40 nestedMutationBytes 42 1).bind
        (fun it => getString nestedMutationBytes it.data) = .ok [0x62, 0x61, 0x72] ∧
     (arrayIndex 40 nestedMutationBytes 0 33).bind
        (fun it => getString nestedMutationBytes it.data) = .ok [0x62, 0x61, 0x7a] ∧
     (arrayIndex 40 nestedMutationBytes 0 34).map
        (fun it => rd nestedMutationBytes it.data) = .ok 0xf6) := by
  constructor
  · intro xs ys enc cs vs fuel addr hok hlen hw henc
    exact arrayPushBack_ser xs ys enc cs vs fuel addr hok hlen hw henc
  · decide

theorem C6_array_push_back_witness :
    arrayPushBack 2 7 (([] : Buf) ++ (encodeHead 4 (List.length [CItem.posint 9]) ++
        serList [CItem.posint 9]) ++ [0xf6]) 0 [.int 1] =
      .ok (([] : Buf) ++ (encodeHead 4 (List.length [CItem.posint 9] + List.length
        [BItem.int 1]) ++ (serList [CItem.posint 9] ++ [0x01])) ++ [0xf6]) :=
  C6_array_push_back.1 [] [0xf6] [0x01] [CItem.posint 9] [.int 1] 2 7
    (by simp [SkipOKList, SkipOK]) (by decide) (by decide) (by decide)

/-- C7: `codec::replace` erases exactly the target item's byte span and
inserts the new encoding (or the copied bytes of the source item) in
its place, leaving every byte before and after the target — and, for an
iterator source, the source item itself — unchanged; in the spec's
scenario, from [0, "foo"] replacing index 0 with 1 yields [1, "foo"],
then replacing index 0 with a copy of index 1 yields ["foo", "foo"],
and `size()` is 2 throughout. -/
theorem C7_replace :
    (∀ (xs ys enc : Buf) (x : CItem) (v : BItem) (fuel addr : Nat),
      SkipOK x → weight x ≤ fuel → encodeB addr v = .ok enc →
      replaceWithValue fuel addr (xs ++ ser x ++ ys) xs.length v =
        .ok (xs ++ enc ++ ys)) ∧
    (∀ (xs mid ys : Buf) (x y : CItem) (fuel : Nat),
      SkipOK x → SkipOK y → weight x ≤ fuel → weight y ≤ fuel →
      replaceWithIter fuel (xs ++ ser x ++ mid ++ ser y ++ ys) xs.length
          (xs ++ ser x ++ mid).length =
        .ok (xs ++ ser y ++ mid ++ ser y ++ ys)) ∧
    (codecPushBack 0 [] [.int 0, .str [0x66, 0x6f, 0x6f]] =
       .ok [0x00, 0x63, 0x66, 0x6f, 0x6f] ∧
     replaceWithValue 4 0 [0x00, 0x63, 0x66, 0x6f, 0x6f] 0 (.int 1) =
       .ok [0x01, 0x63, 0x66, 0x6f, 0x6f] ∧
     replaceWithIter 4 [0x01, 0x63, 0x66, 0x6f, 0x6f] 0 1 =
       .ok [0x63, 0x66, 0x6f, 0x6f, 0x63, 0x66, 0x6f, 0x6f] ∧
     codecSize 10 [0x00, 0x63, 0x66, 0x6f, 0x6f] = .ok 2 ∧
     codecSize 10 [0x01, 0x63, 0x66, 0x6f, 0x6f] = .ok 2 ∧
     codecSize 10 [0x63, 0x66, 0x6f, 0x6f, 0x63, 0x66, 0x6f, 0x6f] = .ok 2) := by
  refine ⟨?_, ?_, by decide⟩
  · intro xs ys enc x v fuel addr hok hw henc
    exact replaceWithValue_ser xs ys enc x v fuel addr hok hw henc
  · intro xs mid ys x y fuel hokx hoky hwx hwy
    exact replaceWithIter_ser xs mid ys x y fuel hokx hoky hwx hwy

theorem C7_replace_witness :
    replaceWithValue 1 0 (([] : Buf) ++ ser (CItem.posint 0) ++ [0xf7]) 0 (.int 1) =
      .ok (([] : Buf) ++ [0x01] ++ [0xf7]) ∧
    replaceWithIter 1 (([] : Buf) ++ ser (CItem.posint 0) ++ [] ++
        ser (CItem.posint 2) ++ [0xf7]) 0
        (([] : Buf) ++ ser (CItem.posint 0) ++ ([] : Buf)).length =
      .ok (([] : Buf) ++ ser (CItem.posint 2) ++ [] ++ ser (CItem.posint 2) ++ [0xf7]) :=
  ⟨C7_replace.1 [] [0xf7] [0x01] (.posint 0) (.int 1) 1 0 (by simp [SkipOK])
      (by decide) (by decide),
    C7_replace.2.1 [] [] [0xf7] (.posint 0) (.posint 2) 1 (by simp [SkipOK])
      (by simp [SkipOK]) (by decide) (by decide)⟩

end Cborxx
